import Mathlib

/-!
Verification development for a container-image artifact extraction tool.

The tool (src/src/main.rs) is a sequential pipeline: build image, save to a
tar archive, parse the archive's `manifest.json` to select the largest layer
(`parse_manifest`), extract it, copy components out (`copy_dir`,
`copy_encore_components`), and clean up (`main`).

This file gives a shallow embedding of the three parts the claims are about:
  * `parse_manifest` over a model of `serde_json` values, where a JSON object
    parses into a `BTreeMap` (iteration in sorted key order, duplicate keys
    resolved last-wins) — modelled by `btInsert` / `serdeMap`;
  * `copy_dir` over a model of directory trees (`FsTree`), with oracles for
    the three kinds of I/O failure the function meets (per-file copy failure,
    directory-creation failure, traversal/readdir failure);
  * the cleanup behaviour of `main`, as a step model over failure oracles
    recording which on-disk artifacts remain when the process finishes.
-/

/-- Model of a `serde_json::Value`. Object fields are kept in the textual
order of the document; every map operation (`get`, indexing, iteration) goes
through `serdeMap`, which builds the `BTreeMap` that `serde_json` actually
stores (sorted keys, later duplicate keys overwriting earlier ones).
Numbers are modelled as integers: the claims only involve integer sizes, and
`as_u64` rejects everything except `u64`-range integers anyway. -/
inductive Json where
  | null
  | bool (b : Bool)
  | num (n : Int)
  | str (s : String)
  | arr (elems : List Json)
  | obj (fields : List (String × Json))

/-- Strict lexicographic order on lists of characters, comparing code
points; on valid UTF-8 this coincides with the byte order Rust's
`Ord for String` uses to arrange `BTreeMap` keys. -/
def listLtB : List Char → List Char → Bool
  | [], [] => false
  | [], _ :: _ => true
  | _ :: _, [] => false
  | a :: as, b :: bs =>
    if a.toNat < b.toNat then true
    else if b.toNat < a.toNat then false
    else listLtB as bs

/-- Strict lexicographic order on strings (Rust's `Ord for String`). -/
def strLtB (a b : String) : Bool := listLtB a.data b.data

/-- One insertion into the sorted association list modelling a
`BTreeMap<String, Value>`: keeps keys strictly sorted, overwrites on an
equal key (the `last one wins` behaviour of repeated `insert`). -/
def btInsert (k : String) (v : Json) : List (String × Json) → List (String × Json)
  | [] => [(k, v)]
  | (k', v') :: rest =>
    if strLtB k k' then (k, v) :: (k', v') :: rest
    else if k = k' then (k, v) :: rest
    else (k', v') :: btInsert k v rest

/-- The `BTreeMap` built by `serde_json` from an object's fields in textual
order: each field inserted in document order, so a duplicate key keeps the
last value; iteration over the result is in sorted key order. -/
def serdeMap (fields : List (String × Json)) : List (String × Json) :=
  fields.foldl (fun m kv => btInsert kv.1 kv.2 m) []

/-- The `Map::get` operation on the built `BTreeMap`. -/
def mapGet (fields : List (String × Json)) (k : String) : Option Json :=
  ((serdeMap fields).find? (fun kv => kv.1 == k)).map Prod.snd

/-- Indexing a `Value` (`value["key"]`): field value for objects, `Null` for a
missing key or a non-object — `serde_json` never panics here. -/
def jIndex (v : Json) (k : String) : Json :=
  match v with
  | .obj fields => (mapGet fields k).getD .null
  | _ => .null

/-- The `Value::get("key")` operation: `Some` field value for objects, `None` otherwise. -/
def jGet (v : Json) (k : String) : Option Json :=
  match v with
  | .obj fields => mapGet fields k
  | _ => none

/-- The `Value::as_u64` conversion: integers in `u64` range, `None` for anything else. -/
def as_u64 : Json → Option Nat
  | .num n => if 0 ≤ n ∧ n < (2 : Int) ^ 64 then some n.toNat else none
  | _ => none

/-- The size lookup `info.get("size").and_then(|s| s.as_u64())` from `parse_manifest`. -/
def sizeOfInfo (info : Json) : Option Nat :=
  (jGet info "size").bind as_u64

/-- The loop of `parse_manifest` lines 99–108: the accumulator is the pair
`(largest_layer, largest_size)`, initialised to `(None, 0)`; a candidate
with a parseable `size` replaces the accumulator only when its size is
strictly greater than `largest_size`. -/
def selectLoopAux (acc : Option String × Nat) : List (String × Json) → Option String × Nat
  | [] => acc
  | kv :: rest =>
    selectLoopAux
      (match sizeOfInfo kv.2 with
       | some size => if acc.2 < size then (some kv.1, size) else acc
       | none => acc) rest

/-- The whole selection loop with its initial accumulator `(None, 0u64)`. -/
def selectLoop (l : List (String × Json)) : Option String × Nat :=
  selectLoopAux (none, 0) l

/-- Rust `str::starts_with` on string literals (byte-prefix test; for UTF-8
strings this is exactly the character-prefix test). -/
def rustStartsWith (s p : String) : Bool := p.data.isPrefixOf s.data

/-- Lines 112–116: remove a leading `"sha256:"` (7 characters) if present. -/
def strip_sha256 (digest : String) : String :=
  if rustStartsWith digest "sha256:" then digest.drop 7 else digest

/-- The input of `parse_manifest`: either text that is not valid JSON (or is
valid JSON of the wrong shape for `Vec<Value>`, which `from_reader` also
rejects), or a parsed JSON document. -/
inductive ManifestDoc where
  | invalid
  | json (v : Json)

/-- Outcome of `parse_manifest`: a selected digest, the propagated
`serde_json` error (ParseError), the "No layer sources found" error
(NoLayersFound), or a panic (the `manifest[0]` `Vec` indexing). -/
inductive PmResult where
  | ok (digest : String)
  | parseError
  | noLayersFound
  | panicked
  deriving DecidableEq

/-- Deserialisation `serde_json::from_reader::<Vec<Value>>`: any JSON array succeeds,
anything else is an error. -/
def from_reader : ManifestDoc → Option (List Json)
  | .invalid => none
  | .json (.arr xs) => some xs
  | .json _ => none

/-- The function `parse_manifest` (src/src/main.rs lines 92–117). `manifest[0]` is `Vec`
indexing, which panics on an empty vector; `manifest[0]["LayerSources"]` is
`Value` indexing, which yields `Null` when absent; the loop then runs over
the `BTreeMap` of the `LayerSources` object (sorted key order). -/
def parse_manifest (doc : ManifestDoc) : PmResult :=
  match from_reader doc with
  | none => .parseError
  | some [] => .panicked
  | some (first :: _) =>
    let layer_sources := jIndex first "LayerSources"
    let acc :=
      match layer_sources with
      | .obj sources => selectLoop (serdeMap sources)
      | _ => ((none : Option String), 0)
    match acc.1 with
    | none => .noLayersFound
    | some digest => .ok (strip_sha256 digest)

/-- The sized entries the loop considers: key paired with parsed size, in
iteration order, entries without a parseable `size` dropped. -/
def sizedOf (l : List (String × Json)) : List (String × Nat) :=
  l.filterMap (fun kv => (sizeOfInfo kv.2).map (fun s => (kv.1, s)))

/-- Maximum size among the sized entries (0 when there are none). -/
def maxSized : List (String × Nat) → Nat
  | [] => 0
  | kv :: rest => max kv.2 (maxSized rest)

/-- Specification-level selection: the first entry (in iteration order)
whose size equals the maximum, provided that maximum is positive; `none`
otherwise (the `largest_size = 0` initialisation means a maximum of 0 is
never selected). -/
def specSelect (entries : List (String × Nat)) : Option String :=
  if 0 < maxSized entries then
    (entries.find? (fun kv => kv.2 == maxSized entries)).map Prod.fst
  else none

/-- Sanity check: the manifest of the spec's end-to-end scenario selects
the larger layer and strips the prefix. -/
theorem parse_manifest_sanity : parse_manifest (.json (.arr [.obj [("LayerSources",
    .obj [("sha256:aaa", .obj [("size", .num 100)]),
          ("sha256:bbb", .obj [("size", .num 500)])])]])) = .ok "bbb" := by decide

/-- Sanity check: the map builder sorts keys and keeps the last duplicate. -/
theorem serdeMap_sanity : serdeMap [("b", .null), ("a", .num 1), ("b", .num 2)]
    = [("a", .num 1), ("b", .num 2)] := rfl

/-- Characterisation of the selection loop from any accumulator: if some
entry's size strictly exceeds the running maximum `m`, the loop ends at the
overall maximum with the first entry (in iteration order) attaining it;
otherwise the accumulator survives unchanged. -/
theorem selectLoopAux_eq (l : List (String × Json)) : ∀ ko m,
    selectLoopAux (ko, m) l =
      if m < maxSized (sizedOf l) then
        (((sizedOf l).find? (fun kv => kv.2 == maxSized (sizedOf l))).map Prod.fst,
          maxSized (sizedOf l))
      else (ko, m) := by
  induction l with
  | nil =>
    intro ko m
    simp [selectLoopAux, sizedOf, maxSized]
  | cons kv rest ih =>
    intro ko m
    cases hs : sizeOfInfo kv.2 with
    | none =>
      have hsz : sizedOf (kv :: rest) = sizedOf rest := by
        simp [sizedOf, List.filterMap_cons, hs]
      have hstep : selectLoopAux (ko, m) (kv :: rest) = selectLoopAux (ko, m) rest := by
        simp [selectLoopAux, hs]
      rw [hstep, hsz]
      exact ih ko m
    | some s =>
      have hsz : sizedOf (kv :: rest) = (kv.1, s) :: sizedOf rest := by
        simp [sizedOf, List.filterMap_cons, hs]
      have hstep : selectLoopAux (ko, m) (kv :: rest)
          = selectLoopAux (if m < s then (some kv.1, s) else (ko, m)) rest := by
        simp [selectLoopAux, hs]
      rw [hstep, hsz]
      by_cases hms : m < s
      · rw [if_pos hms, ih (some kv.1) s]
        by_cases hsM : s < maxSized (sizedOf rest)
        · have hmax : maxSized ((kv.1, s) :: sizedOf rest) = maxSized (sizedOf rest) := by
            simp [maxSized]; omega
          rw [if_pos hsM, hmax, if_pos (by omega)]
          rw [List.find?_cons_of_neg _ (by simp; omega)]
        · have hmax : maxSized ((kv.1, s) :: sizedOf rest) = s := by
            simp [maxSized]; omega
          rw [if_neg hsM, hmax, if_pos hms]
          rw [List.find?_cons_of_pos _ (by simp)]
          rfl
      · rw [if_neg hms, ih ko m]
        have hsm : s ≤ m := Nat.le_of_not_lt hms
        by_cases hmM : m < maxSized (sizedOf rest)
        · have hmax : maxSized ((kv.1, s) :: sizedOf rest) = maxSized (sizedOf rest) := by
            simp [maxSized]; omega
          rw [if_pos hmM, hmax, if_pos hmM]
          rw [List.find?_cons_of_neg _ (by simp; omega)]
        · rw [if_neg hmM, if_neg (by simp [maxSized]; omega)]

/-- The whole loop computes exactly the specification-level selection
together with the maximum size. -/
theorem selectLoop_eq (l : List (String × Json)) :
    selectLoop l = (specSelect (sizedOf l), maxSized (sizedOf l)) := by
  unfold selectLoop specSelect
  rw [selectLoopAux_eq]
  by_cases h : 0 < maxSized (sizedOf l)
  · rw [if_pos h, if_pos h]
  · rw [if_neg h, if_neg h]
    have h0 : maxSized (sizedOf l) = 0 := by omega
    rw [h0]

theorem listLtB_irrefl (l : List Char) : listLtB l l = false := by
  induction l with
  | nil => rfl
  | cons a as ih => simp [listLtB, ih]

theorem listLtB_trans (a : List Char) :
    ∀ b c, listLtB a b = true → listLtB b c = true → listLtB a c = true := by
  induction a with
  | nil =>
    intro b c h₁ h₂
    cases b with
    | nil => simp [listLtB] at h₁
    | cons y ys =>
      cases c with
      | nil => simp [listLtB] at h₂
      | cons z zs => simp [listLtB]
  | cons x xs ih =>
    intro b c h₁ h₂
    cases b with
    | nil => simp [listLtB] at h₁
    | cons y ys =>
      cases c with
      | nil => simp [listLtB] at h₂
      | cons z zs =>
        simp only [listLtB] at h₁ h₂ ⊢
        split_ifs at h₁ h₂ ⊢ <;>
          first
            | rfl
            | exact Bool.noConfusion h₁
            | exact Bool.noConfusion h₂
            | exact ih ys zs h₁ h₂
            | (exfalso; omega)

theorem listLtB_asymm {a b : List Char} (h : listLtB a b = true) : listLtB b a = false := by
  by_contra hc
  rw [Bool.not_eq_false] at hc
  have h2 := listLtB_trans a b a h hc
  rw [listLtB_irrefl] at h2
  exact Bool.noConfusion h2

theorem listLtB_conn (a : List Char) :
    ∀ b, listLtB a b = false → listLtB b a = false → a = b := by
  induction a with
  | nil =>
    intro b h₁ _
    cases b with
    | nil => rfl
    | cons y ys => simp [listLtB] at h₁
  | cons x xs ih =>
    intro b h₁ h₂
    cases b with
    | nil => simp [listLtB] at h₂
    | cons y ys =>
      simp only [listLtB] at h₁ h₂
      by_cases hxy : x.toNat < y.toNat
      · rw [if_pos hxy] at h₁
        exact Bool.noConfusion h₁
      · by_cases hyx : y.toNat < x.toNat
        · rw [if_pos hyx] at h₂
          exact Bool.noConfusion h₂
        · rw [if_neg hxy, if_neg hyx] at h₁
          rw [if_neg hyx, if_neg hxy] at h₂
          have hnat : x.toNat = y.toNat := by omega
          have hx : x = y := Char.ext (UInt32.ext hnat)
          rw [hx, ih ys h₁ h₂]

theorem strLtB_irrefl (s : String) : strLtB s s = false := listLtB_irrefl s.data

theorem strLtB_trans {a b c : String} (h₁ : strLtB a b = true) (h₂ : strLtB b c = true) :
    strLtB a c = true := listLtB_trans a.data b.data c.data h₁ h₂

theorem strLtB_asymm {a b : String} (h : strLtB a b = true) : strLtB b a = false :=
  listLtB_asymm h

theorem strLtB_conn {a b : String} (h₁ : strLtB a b = false) (h₂ : strLtB b a = false) :
    a = b := by
  have hd : a.data = b.data := listLtB_conn a.data b.data h₁ h₂
  cases a; cases b; cases hd; rfl

theorem strLtB_ne {a b : String} (h : strLtB a b = true) : a ≠ b := by
  intro he
  rw [he, strLtB_irrefl] at h
  exact Bool.noConfusion h

theorem strLtB_of_ne {a b : String} (h₁ : strLtB a b = false) (h₂ : a ≠ b) :
    strLtB b a = true := by
  cases hc : strLtB b a with
  | true => rfl
  | false => exact absurd (strLtB_conn h₁ hc) h₂

theorem bool_eq_false {b : Bool} (h : ¬ b = true) : b = false := by
  cases b
  · rfl
  · exact absurd rfl h

/-- Keys strictly increase along the list: the invariant of the sorted
association list modelling the `BTreeMap`. -/
def keyLt (a b : String × Json) : Prop := strLtB a.1 b.1 = true

theorem btInsert_subset {k : String} {v : Json} {m : List (String × Json)} {x : String × Json} :
    x ∈ btInsert k v m → x = (k, v) ∨ x ∈ m := by
  induction m with
  | nil =>
    intro h
    rw [btInsert] at h
    rcases List.mem_cons.mp h with h | h
    · exact Or.inl h
    · exact absurd h (List.not_mem_nil x)
  | cons kv rest ih =>
    obtain ⟨k', v'⟩ := kv
    intro h
    rw [btInsert] at h
    split_ifs at h with h1 h2
    · rcases List.mem_cons.mp h with h | h
      · exact Or.inl h
      · exact Or.inr h
    · rcases List.mem_cons.mp h with h | h
      · exact Or.inl h
      · exact Or.inr (List.mem_cons_of_mem _ h)
    · rcases List.mem_cons.mp h with h | h
      · exact Or.inr (by rw [h]; exact List.mem_cons_self _ _)
      · rcases ih h with h' | h'
        · exact Or.inl h'
        · exact Or.inr (List.mem_cons_of_mem _ h')

theorem btInsert_key_mem {k : String} {v : Json} {m : List (String × Json)} {y : String} :
    y ∈ (btInsert k v m).map Prod.fst ↔ y = k ∨ y ∈ m.map Prod.fst := by
  induction m with
  | nil => simp [btInsert]
  | cons kv rest ih =>
    obtain ⟨k', v'⟩ := kv
    rw [btInsert]
    split_ifs with h1 h2
    · simp
    · subst h2
      simp
    · simp only [List.map_cons, List.mem_cons, ih]
      tauto

theorem btInsert_sorted {k : String} {v : Json} {m : List (String × Json)}
    (hs : m.Pairwise keyLt) : (btInsert k v m).Pairwise keyLt := by
  induction m with
  | nil => simp [btInsert, keyLt]
  | cons kv rest ih =>
    obtain ⟨k', v'⟩ := kv
    rw [List.pairwise_cons] at hs
    obtain ⟨h1, h2⟩ := hs
    rw [btInsert]
    split_ifs with hlt heq
    · refine List.pairwise_cons.mpr ⟨?_, List.pairwise_cons.mpr ⟨h1, h2⟩⟩
      intro x hx
      rcases List.mem_cons.mp hx with h | h
      · rw [h]
        exact hlt
      · exact strLtB_trans hlt (h1 x h)
    · subst heq
      exact List.pairwise_cons.mpr ⟨h1, h2⟩
    · refine List.pairwise_cons.mpr ⟨?_, ih h2⟩
      intro x hx
      rcases btInsert_subset hx with h | h
      · rw [h]
        exact strLtB_of_ne (bool_eq_false hlt) heq
      · exact h1 x h

theorem btInsert_mem {k : String} {v : Json} {m : List (String × Json)}
    (hs : m.Pairwise keyLt) (x : String × Json) :
    x ∈ btInsert k v m ↔ x = (k, v) ∨ (x ∈ m ∧ x.1 ≠ k) := by
  induction m with
  | nil => simp [btInsert]
  | cons kv rest ih =>
    obtain ⟨k', v'⟩ := kv
    rw [List.pairwise_cons] at hs
    obtain ⟨h1, h2⟩ := hs
    rw [btInsert]
    split_ifs with hlt heq
    · constructor
      · intro h
        rcases List.mem_cons.mp h with h | h
        · exact Or.inl h
        · refine Or.inr ⟨h, ?_⟩
          intro he
          rcases List.mem_cons.mp h with h' | h'
          · have he' : k' = k := by rw [h'] at he; exact he
            rw [he'] at hlt
            rw [strLtB_irrefl] at hlt
            exact Bool.noConfusion hlt
          · have hk : strLtB k x.1 = true := strLtB_trans hlt (h1 x h')
            rw [he, strLtB_irrefl] at hk
            exact Bool.noConfusion hk
      · intro h
        rcases h with h | ⟨h, _⟩
        · rw [h]
          exact List.mem_cons_self _ _
        · exact List.mem_cons_of_mem _ h
    · subst heq
      constructor
      · intro h
        rcases List.mem_cons.mp h with h | h
        · exact Or.inl h
        · refine Or.inr ⟨List.mem_cons_of_mem _ h, ?_⟩
          intro he
          have hx := h1 x h
          rw [keyLt, he, strLtB_irrefl] at hx
          exact Bool.noConfusion hx
      · intro h
        rcases h with h | ⟨h, hne⟩
        · rw [h]
          exact List.mem_cons_self _ _
        · rcases List.mem_cons.mp h with h' | h'
          · exact absurd (by rw [h'] : x.1 = k) hne
          · exact List.mem_cons_of_mem _ h'
    · constructor
      · intro h
        rcases List.mem_cons.mp h with h | h
        · refine Or.inr ⟨by rw [h]; exact List.mem_cons_self _ _, ?_⟩
          rw [h]
          intro he
          exact heq he.symm
        · rcases (ih h2).mp h with h' | ⟨h', hne⟩
          · exact Or.inl h'
          · exact Or.inr ⟨List.mem_cons_of_mem _ h', hne⟩
      · intro h
        rcases h with h | ⟨h, hne⟩
        · exact List.mem_cons_of_mem _ ((ih h2).mpr (Or.inl h))
        · rcases List.mem_cons.mp h with h' | h'
          · rw [h']
            exact List.mem_cons_self _ _
          · exact List.mem_cons_of_mem _ ((ih h2).mpr (Or.inr ⟨h', hne⟩))

/-- The fold building the `BTreeMap` keeps the list strictly key-sorted. -/
theorem serdeFold_sorted (l : List (String × Json)) :
    ∀ acc, acc.Pairwise keyLt →
      (l.foldl (fun m kv => btInsert kv.1 kv.2 m) acc).Pairwise keyLt := by
  induction l with
  | nil => intro acc h; exact h
  | cons kv rest ih => intro acc h; exact ih _ (btInsert_sorted h)

theorem serdeMap_sorted (l : List (String × Json)) : (serdeMap l).Pairwise keyLt :=
  serdeFold_sorted l [] (List.Pairwise.nil)

theorem serdeFold_subset (l : List (String × Json)) :
    ∀ acc x, x ∈ l.foldl (fun m kv => btInsert kv.1 kv.2 m) acc → x ∈ acc ∨ x ∈ l := by
  induction l with
  | nil => intro acc x h; exact Or.inl h
  | cons kv rest ih =>
    intro acc x h
    rcases ih _ x h with h' | h'
    · rcases btInsert_subset h' with h'' | h''
      · exact Or.inr (by rw [h'']; exact List.mem_cons_self _ _)
      · exact Or.inl h''
    · exact Or.inr (List.mem_cons_of_mem _ h')

/-- Every entry of the built map comes from the raw field list. -/
theorem serdeMap_subset {l : List (String × Json)} {x : String × Json}
    (h : x ∈ serdeMap l) : x ∈ l := by
  rcases serdeFold_subset l [] x h with h' | h'
  · exact absurd h' (List.not_mem_nil x)
  · exact h'

theorem serdeFold_mem (l : List (String × Json)) :
    ∀ acc, acc.Pairwise keyLt → (l.map Prod.fst).Nodup →
      (∀ y, y ∈ l.map Prod.fst → y ∉ acc.map Prod.fst) →
      ∀ x, x ∈ l.foldl (fun m kv => btInsert kv.1 kv.2 m) acc ↔ x ∈ acc ∨ x ∈ l := by
  induction l with
  | nil => intro acc _ _ _ x; simp
  | cons kv rest ih =>
    intro acc hacc hnd hdisj x
    have hknotin : kv.1 ∉ acc.map Prod.fst :=
      hdisj kv.1 (by simp)
    have hknotrest : kv.1 ∉ rest.map Prod.fst := by
      rw [List.map_cons, List.nodup_cons] at hnd
      exact hnd.1
    have hstep := ih (btInsert kv.1 kv.2 acc) (btInsert_sorted hacc)
      (by rw [List.map_cons, List.nodup_cons] at hnd; exact hnd.2)
      (by
        intro y hy hymem
        rcases btInsert_key_mem.mp hymem with h | h
        · exact hknotrest (h ▸ hy)
        · exact hdisj y (List.mem_cons_of_mem _ hy) h) x
    rw [List.foldl_cons, hstep, btInsert_mem hacc]
    constructor
    · intro h
      rcases h with (h | ⟨h, _⟩) | h
      · exact Or.inr (by rw [h]; exact List.mem_cons_self _ _)
      · exact Or.inl h
      · exact Or.inr (List.mem_cons_of_mem _ h)
    · intro h
      rcases h with h | h
      · refine Or.inl (Or.inr ⟨h, ?_⟩)
        intro he
        refine hknotin ?_
        rw [← he]
        exact List.mem_map_of_mem Prod.fst h
      · rcases List.mem_cons.mp h with h' | h'
        · exact Or.inl (Or.inl (by rw [h']))
        · exact Or.inr h'

/-- With pairwise-distinct keys, the built map has exactly the raw entries. -/
theorem serdeMap_mem_nodup {l : List (String × Json)}
    (hnd : (l.map Prod.fst).Nodup) (x : String × Json) :
    x ∈ serdeMap l ↔ x ∈ l := by
  rw [serdeMap, serdeFold_mem l [] List.Pairwise.nil hnd (by simp) x]
  simp

/-- Two strictly key-sorted lists with the same members are equal. -/
theorem sorted_eq_of_mem_iff :
    ∀ (l₁ l₂ : List (String × Json)), l₁.Pairwise keyLt → l₂.Pairwise keyLt →
      (∀ x, x ∈ l₁ ↔ x ∈ l₂) → l₁ = l₂ := by
  intro l₁
  induction l₁ with
  | nil =>
    intro l₂ _ _ hmem
    cases l₂ with
    | nil => rfl
    | cons b t₂ => exact absurd ((hmem b).mpr (List.mem_cons_self _ _)) (List.not_mem_nil b)
  | cons a t₁ ih =>
    intro l₂ h₁ h₂ hmem
    cases l₂ with
    | nil => exact absurd ((hmem a).mp (List.mem_cons_self _ _)) (List.not_mem_nil a)
    | cons b t₂ =>
      rw [List.pairwise_cons] at h₁ h₂
      have hab : a = b := by
        by_contra hne
        rcases List.mem_cons.mp ((hmem a).mp (List.mem_cons_self _ _)) with h | h
        · exact hne h
        · rcases List.mem_cons.mp ((hmem b).mpr (List.mem_cons_self _ _)) with h' | h'
          · exact hne h'.symm
          · have hba := h₂.1 a h
            have hab' := h₁.1 b h'
            rw [keyLt] at hba hab'
            rw [strLtB_asymm hab'] at hba
            exact Bool.noConfusion hba
      subst hab
      have htail : ∀ x, x ∈ t₁ ↔ x ∈ t₂ := by
        intro x
        constructor
        · intro hx
          rcases List.mem_cons.mp ((hmem x).mp (List.mem_cons_of_mem _ hx)) with h | h
          · exfalso
            have := h₁.1 x hx
            rw [keyLt, h, strLtB_irrefl] at this
            exact Bool.noConfusion this
          · exact h
        · intro hx
          rcases List.mem_cons.mp ((hmem x).mpr (List.mem_cons_of_mem _ hx)) with h | h
          · exfalso
            have := h₂.1 x hx
            rw [keyLt, h, strLtB_irrefl] at this
            exact Bool.noConfusion this
          · exact h
      rw [ih t₂ h₁.2 h₂.2 htail]

/-- Building the map from two textual orders of the same fields (distinct
keys) yields the same `BTreeMap`. -/
theorem serdeMap_perm {l₁ l₂ : List (String × Json)} (hp : l₁.Perm l₂)
    (hnd : (l₁.map Prod.fst).Nodup) : serdeMap l₁ = serdeMap l₂ := by
  have hnd₂ : (l₂.map Prod.fst).Nodup := ((hp.map Prod.fst).nodup_iff).mp hnd
  refine sorted_eq_of_mem_iff _ _ (serdeMap_sorted l₁) (serdeMap_sorted l₂) ?_
  intro x
  rw [serdeMap_mem_nodup hnd x, serdeMap_mem_nodup hnd₂ x]
  exact hp.mem_iff

/-- Full characterisation of `parse_manifest` on a manifest whose top-level
array is non-empty. -/
theorem parse_manifest_char (first : Json) (rest : List Json) :
    parse_manifest (.json (.arr (first :: rest))) =
      (match jIndex first "LayerSources" with
        | .obj sources =>
          (match specSelect (sizedOf (serdeMap sources)) with
            | some k => .ok (strip_sha256 k)
            | none => .noLayersFound)
        | _ => PmResult.noLayersFound) := by
  unfold parse_manifest from_reader
  cases h : jIndex first "LayerSources"
  all_goals simp only [h, selectLoop_eq]
  all_goals cases hsel : specSelect (sizedOf (serdeMap _)) <;> simp [hsel]

/-- On a manifest whose first entry is an object with just the layer-sources
field, `parse_manifest` is the specification-level selection over the built
map of that field. -/
theorem parse_manifest_obj (sources : List (String × Json)) (rest : List Json) :
    parse_manifest (.json (.arr (Json.obj [("LayerSources", Json.obj sources)] :: rest))) =
      (match specSelect (sizedOf (serdeMap sources)) with
        | some k => .ok (strip_sha256 k)
        | none => PmResult.noLayersFound) := by
  rw [parse_manifest_char]
  rfl

theorem maxSized_le {L : List (String × Nat)} {k : String} {s : Nat}
    (h : (k, s) ∈ L) : s ≤ maxSized L := by
  induction L with
  | nil => exact absurd h (List.not_mem_nil _)
  | cons kv rest ih =>
    rcases List.mem_cons.mp h with h' | h'
    · rw [maxSized, ← h']
      exact Nat.le_max_left _ _
    · exact le_trans (ih h') (le_trans (Nat.le_max_right kv.2 _) (le_of_eq (by rw [maxSized])))

theorem maxSized_le_of {L : List (String × Nat)} {s : Nat}
    (h : ∀ kv ∈ L, kv.2 ≤ s) : maxSized L ≤ s := by
  induction L with
  | nil => exact Nat.zero_le s
  | cons kv rest ih =>
    rw [maxSized]
    exact max_le (h kv (List.mem_cons_self _ _))
      (ih fun kv' h' => h kv' (List.mem_cons_of_mem _ h'))

theorem maxSized_eq {L : List (String × Nat)} {k : String} {s : Nat}
    (hmem : (k, s) ∈ L) (hmax : ∀ kv ∈ L, kv.2 ≤ s) : maxSized L = s :=
  Nat.le_antisymm (maxSized_le_of hmax) (maxSized_le hmem)

/-- When all sizes are pairwise distinct, `find?` locates exactly the given
entry of that size. -/
theorem find?_eq_of_unique {L : List (String × Nat)} {k : String} {s : Nat}
    (hd : L.Pairwise (fun a b => a.2 ≠ b.2)) (hmem : (k, s) ∈ L) :
    L.find? (fun kv => kv.2 == s) = some (k, s) := by
  induction L with
  | nil => exact absurd hmem (List.not_mem_nil _)
  | cons kv rest ih =>
    rw [List.pairwise_cons] at hd
    rcases List.mem_cons.mp hmem with h | h
    · rw [← h]
      exact List.find?_cons_of_pos _ (by simp)
    · have hne : kv.2 ≠ s := hd.1 (k, s) h
      rw [List.find?_cons_of_neg _ (by simp [hne])]
      exact ih hd.2 h

/-- In a strictly key-sorted list, the entry `find?` returns for a given
size bound has the least key among all entries of that size. -/
theorem find?_max_least {L : List (String × Nat)} {M : Nat} {k₀ : String} {s₀ : Nat}
    (hs : L.Pairwise (fun a b : String × Nat => strLtB a.1 b.1 = true))
    (hf : L.find? (fun kv => kv.2 == M) = some (k₀, s₀)) :
    ∀ k s, (k, s) ∈ L → s = M → k₀ = k ∨ strLtB k₀ k = true := by
  induction L with
  | nil => simp [List.find?] at hf
  | cons kv rest ih =>
    rw [List.pairwise_cons] at hs
    intro k s hmem hsM
    by_cases hp : (kv.2 == M) = true
    · rw [@List.find?_cons_of_pos _ (fun kv => kv.2 == M) kv rest hp] at hf
      injection hf with hf
      rcases List.mem_cons.mp hmem with h | h
      · exact Or.inl (congrArg Prod.fst (h.trans hf)).symm
      · right
        have hlt := hs.1 (k, s) h
        rw [hf] at hlt
        exact hlt
    · rw [@List.find?_cons_of_neg _ (fun kv => kv.2 == M) kv rest hp] at hf
      rcases List.mem_cons.mp hmem with h | h
      · exfalso
        apply hp
        rw [← h]
        simp [hsM]
      · exact ih hs.2 hf k s h hsM

/-- Dropping entries without a parseable size keeps the keys strictly
sorted. -/
theorem sizedOf_sorted {l : List (String × Json)} (h : l.Pairwise keyLt) :
    (sizedOf l).Pairwise (fun a b : String × Nat => strLtB a.1 b.1 = true) := by
  rw [sizedOf, List.pairwise_filterMap]
  refine List.Pairwise.imp ?_ h
  intro a b hab x hx y hy
  rw [Option.mem_def] at hx hy
  rcases Option.map_eq_some'.mp hx with ⟨sa, _, hxa⟩
  rcases Option.map_eq_some'.mp hy with ⟨sb, _, hyb⟩
  rw [← hxa, ← hyb]
  exact hab

theorem mem_sizedOf {l : List (String × Json)} {k : String} {s : Nat}
    (h : (k, s) ∈ sizedOf l) : ∃ v, (k, v) ∈ l ∧ sizeOfInfo v = some s := by
  rw [sizedOf] at h
  rcases List.mem_filterMap.mp h with ⟨kv, hkv, hmap⟩
  rcases Option.map_eq_some'.mp hmap with ⟨s', hs', heq⟩
  have h1 : kv.1 = k := congrArg Prod.fst heq
  have h2 : s' = s := congrArg Prod.snd heq
  refine ⟨kv.2, ?_, by rw [hs', h2]⟩
  rw [← h1]
  exact hkv

/-- Counterexample to claim C2 as stated: in the manifest
`[{"LayerSources": {"a": {"size": 0}, "b": {"size": 0}}}]` two entries
share the maximum size (0), yet `parse_manifest` returns the
`No layer sources found` error rather than the first key in iteration
order (`"a"`): the running maximum is initialised to 0 and a candidate
must be strictly greater to be taken, so a tie at 0 selects nothing. -/
theorem c2_counterexample :
    parse_manifest (.json (.arr [.obj [("LayerSources",
        .obj [("a", .obj [("size", .num 0)]),
              ("b", .obj [("size", .num 0)])])]])) = .noLayersFound
    ∧ PmResult.noLayersFound ≠ .ok "a" := by
  constructor
  · decide
  · decide

/-- Claim C2, amended: the selector iterates every key/value pair of the
first entry's layer-sources mapping (in the map's iteration order) and a
candidate replaces the running maximum only when its size is strictly
greater (not >=); consequently, when several entries share the maximum
size the first one encountered in iteration order is returned PROVIDED
that shared maximum is positive — a maximum of 0 yields `NoLayersFound`
instead (forced by `c2_counterexample`). `parse_manifest` is proved equal
to exactly that description: `specSelect` returns the first entry
(`find?`) whose size equals the overall maximum when that maximum is
positive, and nothing otherwise. -/
theorem c2_strict_greater_first_wins (first : Json) (rest : List Json) :
    parse_manifest (.json (.arr (first :: rest))) =
      (match jIndex first "LayerSources" with
        | .obj sources =>
          (match specSelect (sizedOf (serdeMap sources)) with
            | some k => .ok (strip_sha256 k)
            | none => PmResult.noLayersFound)
        | _ => PmResult.noLayersFound) :=
  parse_manifest_char first rest

/-- Claim C9: with `largest_size` initialised to 0 and replacement only on
strictly greater size, an entry of size 0 can never be selected: a
structurally valid manifest whose layer-sources entries all have parseable
size 0 makes `parse_manifest` return the "No layer sources found" error. -/
theorem c9_zero_size_never_selected (first : Json) (rest : List Json)
    (sources : List (String × Json))
    (hls : jIndex first "LayerSources" = Json.obj sources)
    (_hne : sources ≠ [])
    (hz : ∀ kv ∈ sources, sizeOfInfo kv.2 = some 0) :
    parse_manifest (.json (.arr (first :: rest))) = .noLayersFound := by
  rw [parse_manifest_char, hls]
  have hmax : maxSized (sizedOf (serdeMap sources)) = 0 := by
    refine Nat.le_antisymm (maxSized_le_of ?_) (Nat.zero_le _)
    intro kv hkv
    obtain ⟨k, s⟩ := kv
    obtain ⟨v, hvmem, hvsz⟩ := mem_sizedOf hkv
    have h0 := hz (k, v) (serdeMap_subset hvmem)
    rw [hvsz] at h0
    injection h0 with h0
    rw [← h0]
  simp [specSelect, hmax]

/-- Concrete instance of claim C9: a one-entry manifest whose only layer
has size 0 is rejected with `NoLayersFound`. -/
theorem c9_zero_size_never_selected_witness :
    parse_manifest (.json (.arr [.obj [("LayerSources",
        .obj [("sha256:aaa", .obj [("size", .num 0)])])]])) = .noLayersFound := by
  exact c9_zero_size_never_selected
    (.obj [("LayerSources", .obj [("sha256:aaa", .obj [("size", .num 0)])])]) []
    [("sha256:aaa", .obj [("size", .num 0)])]
    rfl (List.cons_ne_nil _ _) (by decide)

/-- Counterexample to claim C1 as stated: the manifest
`[{"LayerSources": {"sha256:aaa": {"size": 0}}}]` has one entry with
(vacuously) pairwise-distinct numeric sizes, yet `parse_manifest` returns
the `No layer sources found` error instead of the maximal-size key
`"aaa"` — the 0-initialised running maximum never selects a size-0 entry. -/
theorem c1_counterexample :
    parse_manifest (.json (.arr [.obj [("LayerSources",
        .obj [("sha256:aaa", .obj [("size", .num 0)])])]])) = .noLayersFound
    ∧ PmResult.noLayersFound ≠ .ok "aaa" := by
  constructor
  · decide
  · decide

/-- Claim C1, amended: for a manifest whose first entry's layer-sources
mapping has entries of pairwise-distinct parseable sizes, at least one
entry, and a positive maximal size, `parse_manifest` returns the key of
the maximal entry with a leading `sha256:` prefix stripped. (The positivity
hypothesis is forced by `c1_counterexample`.) -/
theorem c1_max_size_selected (first : Json) (rest : List Json)
    (sources : List (String × Json)) (k : String) (s : Nat)
    (hls : jIndex first "LayerSources" = Json.obj sources)
    (hdist : (sizedOf (serdeMap sources)).Pairwise (fun a b => a.2 ≠ b.2))
    (hmem : (k, s) ∈ sizedOf (serdeMap sources))
    (hmax : ∀ kv ∈ sizedOf (serdeMap sources), kv.2 ≤ s)
    (hpos : 0 < s) :
    parse_manifest (.json (.arr (first :: rest))) = .ok (strip_sha256 k) := by
  rw [parse_manifest_char, hls]
  have hM : maxSized (sizedOf (serdeMap sources)) = s := maxSized_eq hmem hmax
  have hf : (sizedOf (serdeMap sources)).find? (fun kv => kv.2 == s) = some (k, s) :=
    find?_eq_of_unique hdist hmem
  simp [specSelect, hM, hpos, hf]

/-- Witness for the amended claim C1, which is also the concrete scenario of
the claim: `[{"LayerSources": {"sha256:aaa": {"size": 100}, "sha256:bbb":
{"size": 500}}}]` selects `"bbb"` (prefix stripped). -/
theorem c1_max_size_selected_witness :
    parse_manifest (.json (.arr [.obj [("LayerSources",
        .obj [("sha256:aaa", .obj [("size", .num 100)]),
              ("sha256:bbb", .obj [("size", .num 500)])])]])) = .ok "bbb" := by
  have h := c1_max_size_selected
    (.obj [("LayerSources", .obj [("sha256:aaa", .obj [("size", .num 100)]),
        ("sha256:bbb", .obj [("size", .num 500)])])]) []
    [("sha256:aaa", .obj [("size", .num 100)]),
      ("sha256:bbb", .obj [("size", .num 500)])]
    "sha256:bbb" 500 rfl (by decide) (by decide) (by decide) (by decide)
  rw [h]
  decide

/-- Counterexample to claim C3 as stated: on the syntactically valid but
empty top-level array `[]`, `parse_manifest` does not return `ParseError`
(or any error): `manifest[0]` is `Vec` indexing, which panics. -/
theorem c3_counterexample :
    parse_manifest (.json (.arr [])) = .panicked
    ∧ PmResult.panicked ≠ .parseError := by
  constructor
  · decide
  · decide

/-- Claim C3, amended: `parse_manifest` fails with `ParseError` when its
input is not valid JSON (including valid JSON whose top level is not an
array, which the `Vec<Value>` deserialisation rejects); on an empty
top-level array it panics (`manifest[0]` out of bounds) instead of
returning an error — and that is the only panic; it fails with
`NoLayersFound` when the first entry's layer-sources mapping is absent
(not an object) or has no entry with a parseable numeric size (which
covers the empty mapping). -/
theorem c3_error_cases :
    (parse_manifest .invalid = .parseError)
    ∧ (∀ v : Json, (∀ xs, v ≠ .arr xs) → parse_manifest (.json v) = .parseError)
    ∧ (∀ doc, parse_manifest doc = .panicked ↔ doc = .json (.arr []))
    ∧ (∀ (first : Json) (rest : List Json) (sources : List (String × Json)),
        jIndex first "LayerSources" = Json.obj sources →
        (∀ kv ∈ sources, sizeOfInfo kv.2 = none) →
        parse_manifest (.json (.arr (first :: rest))) = .noLayersFound)
    ∧ (∀ (first : Json) (rest : List Json) (v : Json),
        jIndex first "LayerSources" = v → (∀ fields, v ≠ .obj fields) →
        parse_manifest (.json (.arr (first :: rest))) = .noLayersFound) := by
  refine ⟨rfl, ?_, ?_, ?_, ?_⟩
  · intro v hv
    cases v with
    | arr xs => exact absurd rfl (hv xs)
    | _ => rfl
  · intro doc
    cases doc with
    | invalid => simp [parse_manifest, from_reader]
    | json v =>
      cases v with
      | arr elems =>
        cases elems with
        | nil => simp [parse_manifest, from_reader]
        | cons f r =>
          rw [parse_manifest_char]
          constructor
          · intro h
            exfalso
            cases hj : jIndex f "LayerSources" <;> simp [hj] at h
            case obj sources =>
              cases hsel : specSelect (sizedOf (serdeMap sources)) <;>
                simp [hsel] at h
          · intro h
            simp at h
      | _ => simp [parse_manifest, from_reader]
  · intro first rest sources hls hnone
    rw [parse_manifest_char, hls]
    have hsz : sizedOf (serdeMap sources) = [] := by
      rw [sizedOf, List.filterMap_eq_nil_iff]
      intro kv hkv
      rw [hnone kv (serdeMap_subset hkv)]
      rfl
    simp [specSelect, hsz, maxSized]
  · intro first rest v hj hv
    rw [parse_manifest_char, hj]
    cases v with
    | obj fields => exact absurd rfl (hv fields)
    | _ => rfl

/-- Concrete instances of the amended claim C3: non-JSON input and
non-array JSON give `ParseError`; the empty array panics; a mapping with no
parseable size, and an absent mapping, give `NoLayersFound`. -/
theorem c3_error_cases_witness :
    parse_manifest .invalid = .parseError
    ∧ parse_manifest (.json (.num 3)) = .parseError
    ∧ parse_manifest (.json (.arr [])) = .panicked
    ∧ parse_manifest (.json (.arr [.obj [("LayerSources",
        .obj [("x", .null)])]])) = .noLayersFound
    ∧ parse_manifest (.json (.arr [.obj []])) = .noLayersFound := by
  have h := c3_error_cases
  refine ⟨h.1, ?_, ?_, ?_, ?_⟩
  · exact h.2.1 (.num 3) (fun xs he => Json.noConfusion he)
  · exact (h.2.2.1 (.json (.arr []))).mpr rfl
  · exact h.2.2.2.1 (.obj [("LayerSources", .obj [("x", .null)])]) []
      [("x", .null)] rfl (by decide)
  · exact h.2.2.2.2 (.obj []) [] .null rfl (fun fields he => Json.noConfusion he)

/-- Claim C10: the selected digest depends only on the set of key/size
pairs of the first entry's layer-sources mapping, not on their textual
order in the document (the `BTreeMap` iterates keys in sorted order), and
when several entries attain the maximal size the winner is the
lexicographically smallest key among them (`strLtB` is that lexicographic
order). -/
theorem c10_order_independence (s₁ s₂ : List (String × Json)) (rest : List Json)
    (hp : s₁.Perm s₂) (hnd : (s₁.map Prod.fst).Nodup) :
    (parse_manifest (.json (.arr (Json.obj [("LayerSources", Json.obj s₁)] :: rest)))
      = parse_manifest (.json (.arr (Json.obj [("LayerSources", Json.obj s₂)] :: rest))))
    ∧ (∀ d, parse_manifest (.json (.arr (Json.obj [("LayerSources", Json.obj s₁)] :: rest)))
          = .ok d →
        ∃ k₀ s₀, d = strip_sha256 k₀ ∧ (k₀, s₀) ∈ sizedOf (serdeMap s₁)
          ∧ s₀ = maxSized (sizedOf (serdeMap s₁))
          ∧ ∀ k s, (k, s) ∈ sizedOf (serdeMap s₁) →
              s = maxSized (sizedOf (serdeMap s₁)) →
              k₀ = k ∨ strLtB k₀ k = true) := by
  constructor
  · rw [parse_manifest_obj, parse_manifest_obj, serdeMap_perm hp hnd]
  · intro d hok
    rw [parse_manifest_obj] at hok
    cases hsel : specSelect (sizedOf (serdeMap s₁)) with
    | none => simp [hsel] at hok
    | some kwin =>
      rw [hsel] at hok
      have hd : d = strip_sha256 kwin := by
        injection hok with hok
        exact hok.symm
      rw [specSelect] at hsel
      by_cases hpos : 0 < maxSized (sizedOf (serdeMap s₁))
      · rw [if_pos hpos] at hsel
        rcases Option.map_eq_some'.mp hsel with ⟨kv, hf, hfst⟩
        obtain ⟨k₀, s₀⟩ := kv
        have hk : k₀ = kwin := hfst
        subst hk
        have hmem := List.mem_of_find?_eq_some hf
        have hsz := List.find?_some hf
        rw [beq_iff_eq] at hsz
        refine ⟨k₀, s₀, hd, hmem, hsz, ?_⟩
        exact find?_max_least (sizedOf_sorted (serdeMap_sorted s₁)) hf
      · rw [if_neg hpos] at hsel
        exact Option.noConfusion hsel

/-- Witness for claim C10: the two textual orders of
`{"b": {"size": 5}, "a": {"size": 5}}` select the same digest, and the tie
at the maximal size 5 goes to the lexicographically smallest key `"a"`. -/
theorem c10_order_independence_witness :
    (parse_manifest (.json (.arr [Json.obj [("LayerSources",
        Json.obj [("b", .obj [("size", .num 5)]), ("a", .obj [("size", .num 5)])])]]))
      = parse_manifest (.json (.arr [Json.obj [("LayerSources",
        Json.obj [("a", .obj [("size", .num 5)]), ("b", .obj [("size", .num 5)])])]])))
    ∧ parse_manifest (.json (.arr [Json.obj [("LayerSources",
        Json.obj [("b", .obj [("size", .num 5)]), ("a", .obj [("size", .num 5)])])]]))
      = .ok "a" := by
  have h := c10_order_independence
    [("b", .obj [("size", .num 5)]), ("a", .obj [("size", .num 5)])]
    [("a", .obj [("size", .num 5)]), ("b", .obj [("size", .num 5)])] []
    (List.Perm.swap (("a", Json.obj [("size", Json.num 5)]) : String × Json)
      ("b", Json.obj [("size", Json.num 5)]) [])
    (by decide)
  exact ⟨h.1, by decide⟩

/-- A directory tree: the model of the filesystem under `copy_dir`'s source
directory. A file carries its byte contents (as a string); a directory
carries its named entries in the order the traversal enumerates them. -/
inductive FsTree where
  | file (content : String)
  | dir (entries : List (String × FsTree))

/-- I/O-failure oracles for `copy_dir`, each keyed by the path relative to
the source root ("" is the root itself): whether `fs::copy` of a file
fails, whether `create_dir_all` of a directory fails, and whether reading
a directory during the `WalkDir` traversal fails. -/
structure CopyEnv where
  copyFails : String → Bool
  mkdirFails : String → Bool
  walkFails : String → Bool

/-- The environment in which no I/O operation fails. -/
def noFail : CopyEnv := ⟨fun _ => false, fun _ => false, fun _ => false⟩

/-- The aborting errors of `copy_dir`: missing/non-directory source
(`ErrorKind::NotFound`), a failed `create_dir_all`, or a failed traversal
read. A failed `fs::copy` of a single file has no constructor here because
the source swallows it (`unwrap_or_else`). -/
inductive CopyErr where
  | sourceNotFound
  | mkdirFailed (path : String)
  | walkFailed (path : String)
  deriving DecidableEq

/-- The filesystem mutations `copy_dir` performs at the destination:
directories created and files copied (relative path with contents). -/
structure CopyTrace where
  dirs : List String
  files : List (String × String)
  deriving DecidableEq

/-- Relative path of an entry named `name` inside the directory whose
relative path is `prel` (the `strip_prefix` + `to_string_lossy` view:
top-level entries are bare names, deeper ones `parent/name`). -/
def joinRel (prel name : String) : String :=
  if prel = "" then name else prel ++ "/" ++ name

/-- Line 131: `rel_str == ex || rel_str.starts_with(&format!("{}/", ex))`. -/
def matchesExcl (ex rel : String) : Bool :=
  rel == ex || rustStartsWith rel (ex ++ "/")

/-- Lines 129–137: an entry is skipped when exclusions were supplied and
some exclusion matches its relative path. -/
def excludedB (exs : Option (List String)) (rel : String) : Bool :=
  match exs with
  | none => false
  | some l => l.any (fun ex => matchesExcl ex rel)

mutual
/-- One visited entry of the `WalkDir` traversal (lines 125–152), at
relative path `joinRel prel name`: the exclusion check happens first
(`continue` skips only the entry's own action — the iterator still
descends into a skipped directory); a non-excluded directory gets
`create_dir_all` (aborting on failure); a non-excluded file gets
`create_dir_all` of its parent (aborting on failure) and then `fs::copy`,
whose failure is swallowed; a failed directory read during descent aborts
(`entry?`). -/
def walkEntry (env : CopyEnv) (exs : Option (List String)) (prel name : String) :
    FsTree → CopyTrace × Option CopyErr
  | .file c =>
    if excludedB exs (joinRel prel name) then (⟨[], []⟩, none)
    else if env.mkdirFails prel then (⟨[], []⟩, some (.mkdirFailed prel))
    else if env.copyFails (joinRel prel name) then (⟨[], []⟩, none)
    else (⟨[], [(joinRel prel name, c)]⟩, none)
  | .dir entries =>
    if excludedB exs (joinRel prel name) then
      (if env.walkFails (joinRel prel name) then
        (⟨[], []⟩, some (.walkFailed (joinRel prel name)))
      else walkEntries env exs (joinRel prel name) entries)
    else if env.mkdirFails (joinRel prel name) then
      (⟨[], []⟩, some (.mkdirFailed (joinRel prel name)))
    else if env.walkFails (joinRel prel name) then
      (⟨[joinRel prel name], []⟩, some (.walkFailed (joinRel prel name)))
    else
      let r := walkEntries env exs (joinRel prel name) entries
      (⟨joinRel prel name :: r.1.dirs, r.1.files⟩, r.2)

/-- The children of one directory, visited in order, stopping at the first
aborting error (depth-first: each entry's whole subtree is processed
before its next sibling, matching `WalkDir`'s default order). -/
def walkEntries (env : CopyEnv) (exs : Option (List String)) (prel : String) :
    List (String × FsTree) → CopyTrace × Option CopyErr
  | [] => (⟨[], []⟩, none)
  | (n, t) :: rest =>
    let r₁ := walkEntry env exs prel n t
    match r₁.2 with
    | some e => (r₁.1, some e)
    | none =>
      let r₂ := walkEntries env exs prel rest
      (⟨r₁.1.dirs ++ r₂.1.dirs, r₁.1.files ++ r₂.1.files⟩, r₂.2)
end

/-- The function `copy_dir` (src/src/main.rs lines 120–154). `src = none` models a
non-existent source path, `some (.file _)` an existing non-directory: both
fail the line-121 check with `NotFound` before anything is created. Then
the destination root is created (line 124) and the traversal runs. The
result is the trace of mutations performed together with the error, if
any, that aborted the walk. -/
def copy_dir (src : Option FsTree) (exs : Option (List String)) (env : CopyEnv) :
    CopyTrace × Option CopyErr :=
  match src with
  | none => (⟨[], []⟩, some .sourceNotFound)
  | some (.file _) => (⟨[], []⟩, some .sourceNotFound)
  | some (.dir entries) =>
    if env.mkdirFails "" then (⟨[], []⟩, some (.mkdirFailed ""))
    else if env.walkFails "" then (⟨[""], []⟩, some (.walkFailed ""))
    else
      let r := walkEntries env exs "" entries
      (⟨"" :: r.1.dirs, r.1.files⟩, r.2)

mutual
/-- Relative paths of all directories in a subtree rooted at the entry
`joinRel prel name`, in traversal order. -/
def treeDirs (prel name : String) : FsTree → List String
  | .file _ => []
  | .dir entries => joinRel prel name :: entriesDirs (joinRel prel name) entries

/-- Relative paths of all directories under the children of a directory. -/
def entriesDirs (prel : String) : List (String × FsTree) → List String
  | [] => []
  | (n, t) :: rest => treeDirs prel n t ++ entriesDirs prel rest
end

mutual
/-- All files (relative path, contents) in a subtree, in traversal order. -/
def treeFiles (prel name : String) : FsTree → List (String × String)
  | .file c => [(joinRel prel name, c)]
  | .dir entries => entriesFiles (joinRel prel name) entries

/-- All files under the children of a directory. -/
def entriesFiles (prel : String) : List (String × FsTree) → List (String × String)
  | [] => []
  | (n, t) :: rest => treeFiles prel n t ++ entriesFiles prel rest
end

/-- Sanity check, the spec's end-to-end copy scenario: excluding `skip`
copies `a` and `a/x.txt` and drops `skip/z.txt`. -/
theorem copy_dir_sanity : copy_dir (some (.dir [("a", .dir [("x.txt", .file "hello")]),
    ("skip", .dir [("z.txt", .file "zz")])])) (some ["skip"]) noFail
    = (⟨["", "a"], [("a/x.txt", "hello")]⟩, none) := by decide

mutual
/-- In an environment where directory creation and traversal reads never
fail, visiting an entry never aborts and performs exactly the mutations
of its subtree filtered by the exclusion test (for directories) and by
the exclusion test plus the file-copy-failure oracle (for files). -/
theorem walkEntry_clean (env : CopyEnv) (exs : Option (List String))
    (hm : ∀ p, env.mkdirFails p = false) (hw : ∀ p, env.walkFails p = false)
    (prel name : String) (t : FsTree) :
    walkEntry env exs prel name t =
      (⟨(treeDirs prel name t).filter (fun q => !excludedB exs q),
        (treeFiles prel name t).filter
          (fun qc => !excludedB exs qc.1 && !env.copyFails qc.1)⟩, none) := by
  cases t with
  | file c =>
    simp only [walkEntry, treeDirs, treeFiles, hm]
    cases hex : excludedB exs (joinRel prel name) <;>
      cases hcf : env.copyFails (joinRel prel name) <;>
      simp [hex, hcf]
  | dir entries =>
    simp only [walkEntry, treeDirs, treeFiles, hm, hw]
    rw [walkEntries_clean env exs hm hw (joinRel prel name) entries]
    cases hex : excludedB exs (joinRel prel name) <;> simp [hex]

/-- Same characterisation for the list of children of one directory. -/
theorem walkEntries_clean (env : CopyEnv) (exs : Option (List String))
    (hm : ∀ p, env.mkdirFails p = false) (hw : ∀ p, env.walkFails p = false)
    (prel : String) (l : List (String × FsTree)) :
    walkEntries env exs prel l =
      (⟨(entriesDirs prel l).filter (fun q => !excludedB exs q),
        (entriesFiles prel l).filter
          (fun qc => !excludedB exs qc.1 && !env.copyFails qc.1)⟩, none) := by
  cases l with
  | nil => simp [walkEntries, entriesDirs, entriesFiles]
  | cons nt rest =>
    obtain ⟨n, t⟩ := nt
    simp only [walkEntries, entriesDirs, entriesFiles]
    rw [walkEntry_clean env exs hm hw prel n t,
      walkEntries_clean env exs hm hw prel rest]
    simp [List.filter_append]
end

/-- In an environment where only single-file copies can fail (the oracle
`cf`), the whole `copy_dir` succeeds, creates the root and all
non-excluded directories, and copies exactly the non-excluded files whose
copy did not fail. -/
theorem copy_dir_clean (entries : List (String × FsTree)) (exs : Option (List String))
    (cf : String → Bool) :
    copy_dir (some (.dir entries)) exs ⟨cf, fun _ => false, fun _ => false⟩ =
      (⟨"" :: (entriesDirs "" entries).filter (fun q => !excludedB exs q),
        (entriesFiles "" entries).filter
          (fun qc => !excludedB exs qc.1 && !cf qc.1)⟩, none) := by
  simp only [copy_dir]
  rw [walkEntries_clean ⟨cf, fun _ => false, fun _ => false⟩ exs
    (fun _ => rfl) (fun _ => rfl) "" entries]
  simp

mutual
/-- Whether and how a visit aborts does not depend on the file-copy-failure
oracle: a failed `fs::copy` is swallowed and can never abort the walk. -/
theorem walkEntry_err_indep (cf₁ cf₂ : String → Bool) (m w : String → Bool)
    (exs : Option (List String)) (prel name : String) (t : FsTree) :
    (walkEntry ⟨cf₁, m, w⟩ exs prel name t).2
      = (walkEntry ⟨cf₂, m, w⟩ exs prel name t).2 := by
  cases t with
  | file c =>
    simp only [walkEntry]
    split_ifs <;> rfl
  | dir entries =>
    simp only [walkEntry]
    split_ifs <;>
      first
        | rfl
        | exact walkEntries_err_indep cf₁ cf₂ m w exs (joinRel prel name) entries

/-- Same for the children of one directory. -/
theorem walkEntries_err_indep (cf₁ cf₂ : String → Bool) (m w : String → Bool)
    (exs : Option (List String)) (prel : String) (l : List (String × FsTree)) :
    (walkEntries ⟨cf₁, m, w⟩ exs prel l).2
      = (walkEntries ⟨cf₂, m, w⟩ exs prel l).2 := by
  cases l with
  | nil => rfl
  | cons nt rest =>
    obtain ⟨n, t⟩ := nt
    simp only [walkEntries]
    have he := walkEntry_err_indep cf₁ cf₂ m w exs prel n t
    cases h₁ : (walkEntry ⟨cf₁, m, w⟩ exs prel n t).2 with
    | some e =>
      have h₂ : (walkEntry ⟨cf₂, m, w⟩ exs prel n t).2 = some e := by rw [← he, h₁]
      simp [h₁, h₂]
    | none =>
      have h₂ : (walkEntry ⟨cf₂, m, w⟩ exs prel n t).2 = none := by rw [← he, h₁]
      simp [h₁, h₂]
      exact walkEntries_err_indep cf₁ cf₂ m w exs prel rest
end

/-- Whether `copy_dir` aborts, and with what error, is independent of the
file-copy-failure oracle. -/
theorem copy_dir_err_indep (src : Option FsTree) (exs : Option (List String))
    (cf₁ cf₂ : String → Bool) (m w : String → Bool) :
    (copy_dir src exs ⟨cf₁, m, w⟩).2 = (copy_dir src exs ⟨cf₂, m, w⟩).2 := by
  cases src with
  | none => rfl
  | some t =>
    cases t with
    | file c => rfl
    | dir entries =>
      simp only [copy_dir]
      split_ifs <;>
        first
          | rfl
          | simp [walkEntries_err_indep cf₁ cf₂ m w exs "" entries]

theorem isPrefixOf_append_self (l t : List Char) : l.isPrefixOf (l ++ t) = true := by
  induction l with
  | nil => simp [List.isPrefixOf]
  | cons a as ih => simp [List.isPrefixOf, ih]

theorem isPrefixOf_append_of {l m : List Char} (t : List Char)
    (h : l.isPrefixOf m = true) : l.isPrefixOf (m ++ t) = true := by
  induction l generalizing m with
  | nil => simp [List.isPrefixOf]
  | cons a as ih =>
    cases m with
    | nil => simp [List.isPrefixOf] at h
    | cons b bs =>
      simp only [List.isPrefixOf, List.cons_append, Bool.and_eq_true, beq_iff_eq] at h ⊢
      exact ⟨h.1, ih h.2⟩

/-- An exclusion matching an entry's relative path also matches every
path below it: equality turns into the `ex ++ "/"` prefix on the child,
and a prefix of the parent stays a prefix of the child. -/
theorem matchesExcl_hered {ex rel : String} (name : String)
    (h : matchesExcl ex rel = true) : matchesExcl ex (rel ++ "/" ++ name) = true := by
  rw [matchesExcl, Bool.or_eq_true] at h ⊢
  rcases h with h | h
  · have he : rel = ex := eq_of_beq h
    subst he
    refine Or.inr ?_
    rw [rustStartsWith, String.data_append (rel ++ "/") name]
    exact isPrefixOf_append_self _ _
  · refine Or.inr ?_
    rw [rustStartsWith] at h ⊢
    rw [String.data_append (rel ++ "/") name, String.data_append rel "/",
      List.append_assoc]
    exact isPrefixOf_append_of _ h

theorem excludedB_hered {exs : List String} {rel : String} (name : String)
    (h : excludedB (some exs) rel = true) :
    excludedB (some exs) (rel ++ "/" ++ name) = true := by
  simp only [excludedB, List.any_eq_true] at h ⊢
  obtain ⟨ex, hmem, hex⟩ := h
  exact ⟨ex, hmem, matchesExcl_hered name hex⟩

/-- Claim C4: with exclusions supplied, `copy_dir` performs exactly the
mutations for entries whose relative path is NOT matched by any exclusion
(string equality or the exclusion followed by the path separator), and a
matched path's descendants are all matched too, so a matched directory's
whole subtree is skipped while names merely sharing a prefix (for example
`node_modules_backup` beside exclusion `node_modules`) are copied. -/
theorem c4_exclusion_prefix_matching (entries : List (String × FsTree)) (exs : List String) :
    (copy_dir (some (.dir entries)) (some exs) noFail =
      (⟨"" :: (entriesDirs "" entries).filter (fun q => !excludedB (some exs) q),
        (entriesFiles "" entries).filter (fun qc => !excludedB (some exs) qc.1)⟩, none))
    ∧ (∀ rel name, excludedB (some exs) rel = true →
        excludedB (some exs) (rel ++ "/" ++ name) = true) := by
  constructor
  · have h := copy_dir_clean entries (some exs) (fun _ => false)
    simpa [noFail] using h
  · intro rel name h
    exact excludedB_hered name h

/-- Witness for claim C4, the scenario named by the claim: excluding
`node_modules` skips the top-level `node_modules` directory and its
file `node_modules/pkg`, while the sibling `node_modules_backup` is
copied. -/
theorem c4_exclusion_prefix_matching_witness :
    (copy_dir (some (.dir [("node_modules", .dir [("pkg", .file "p")]),
        ("node_modules_backup", .dir [("keep", .file "k")])]))
      (some ["node_modules"]) noFail
      = (⟨["", "node_modules_backup"], [("node_modules_backup/keep", "k")]⟩, none))
    ∧ excludedB (some ["node_modules"]) ("node_modules" ++ "/" ++ "pkg") = true := by
  have h := c4_exclusion_prefix_matching
    [("node_modules", .dir [("pkg", .file "p")]),
      ("node_modules_backup", .dir [("keep", .file "k")])] ["node_modules"]
  constructor
  · rw [h.1]
    decide
  · exact h.2 "node_modules" "pkg" (by decide)

/-- Claim C5: a failed copy of a single file is swallowed — in an
environment where only `fs::copy` can fail, the operation still succeeds
and copies every other (non-excluded) file — and the abort behaviour of
`copy_dir` is entirely independent of the file-copy-failure oracle, so
only source-not-found, directory-creation and traversal-read failures can
abort (those are the only constructors of `CopyErr`). -/
theorem c5_file_copy_failures_swallowed (entries : List (String × FsTree))
    (exs : Option (List String)) (cf : String → Bool) :
    ((copy_dir (some (.dir entries)) exs ⟨cf, fun _ => false, fun _ => false⟩).2 = none
      ∧ (copy_dir (some (.dir entries)) exs ⟨cf, fun _ => false, fun _ => false⟩).1.files
          = (entriesFiles "" entries).filter
              (fun qc => !excludedB exs qc.1 && !cf qc.1))
    ∧ (∀ (src : Option FsTree) (cf₁ cf₂ m w : String → Bool),
        (copy_dir src exs ⟨cf₁, m, w⟩).2 = (copy_dir src exs ⟨cf₂, m, w⟩).2) := by
  refine ⟨⟨?_, ?_⟩, ?_⟩
  · rw [copy_dir_clean]
  · rw [copy_dir_clean]
  · intro src cf₁ cf₂ m w
    exact copy_dir_err_indep src exs cf₁ cf₂ m w

/-- Claim C6: with no exclusions and no I/O failures, `copy_dir` creates
the destination root plus exactly the source's directories and copies
exactly the source's files with their contents, in traversal order: the
destination mirrors the source's relative paths and byte contents. -/
theorem c6_mirror_without_exclusions (entries : List (String × FsTree)) :
    copy_dir (some (.dir entries)) none noFail
      = (⟨"" :: entriesDirs "" entries, entriesFiles "" entries⟩, none) := by
  have h := copy_dir_clean entries none (fun _ => false)
  simpa [noFail, excludedB, List.filter_true] using h

/-- Claim C7: on a non-existent source (`none`) or a source that is not a
directory (a file), `copy_dir` fails with the not-found error and the
mutation trace is empty — in particular the destination root is not
created, because the existence check precedes `create_dir_all(dst)`. -/
theorem c7_source_not_found (exs : Option (List String)) (env : CopyEnv) (c : String) :
    copy_dir none exs env = (⟨[], []⟩, some .sourceNotFound)
    ∧ copy_dir (some (.file c)) exs env = (⟨[], []⟩, some .sourceNotFound) :=
  ⟨rfl, rfl⟩

/-- The on-disk artifacts of one run of `main` at process exit: the
`encoredocker.tar` archive, the fixed-name workspace `docker_extract_temp`
(`tempBase`), the two `tempfile`-managed directories inside it (`workDir`,
`layerDir` — removed by their `TempDir` drop on every exit path), and the
final `encore_prod` output directory. -/
structure MainFs where
  tar : Bool
  tempBase : Bool
  workDir : Bool
  layerDir : Bool
  finalOutput : Bool
  deriving DecidableEq

/-- Failure oracles for each fallible step of `main` (lines 229–317), in
program order. `rmOldFails` stands for "the old output directory exists
and removing it fails"; `layerExtractFails` stands for "the gzip
extraction attempt fails AND the plain fallback also fails" (the layer
step aborts only when both do). -/
structure MainEnv where
  rmOldFails : Bool
  buildFails : Bool
  saveFails : Bool
  removeImageFails : Bool
  mkTempBaseFails : Bool
  workTempFails : Bool
  extractFails : Bool
  parseFails : Bool
  layerTempFails : Bool
  layerExtractFails : Bool
  mkFinalFails : Bool
  copyComponentsFails : Bool
  rmTempBaseFails : Bool
  rmTarFails : Bool
  deriving DecidableEq

/-- The Rust `main` (src/src/main.rs lines 229–317) as a step model: each `?` in the
pipeline is an early return carrying the artifacts existing at that point;
the cleanup of `docker_extract_temp` (line 311) and of the tar file
(lines 312–315) runs only after every earlier step succeeded. The
`tempfile`-managed inner directories are removed by drop on every path, so
`workDir`/`layerDir` are false in every outcome; the layer extraction
aborts only when both the gzip attempt and the plain fallback fail. -/
def mainRun (e : MainEnv) : MainFs × Bool :=
  if e.rmOldFails then (⟨false, false, false, false, false⟩, false)
  else if e.buildFails then (⟨false, false, false, false, false⟩, false)
  else if e.saveFails then (⟨false, false, false, false, false⟩, false)
  else if e.removeImageFails then (⟨true, false, false, false, false⟩, false)
  else if e.mkTempBaseFails then (⟨true, false, false, false, false⟩, false)
  else if e.workTempFails then (⟨true, true, false, false, false⟩, false)
  else if e.extractFails then (⟨true, true, false, false, false⟩, false)
  else if e.parseFails then (⟨true, true, false, false, false⟩, false)
  else if e.layerTempFails then (⟨true, true, false, false, false⟩, false)
  else if e.layerExtractFails then (⟨true, true, false, false, false⟩, false)
  else if e.mkFinalFails then (⟨true, true, false, false, false⟩, false)
  else if e.copyComponentsFails then (⟨true, true, false, false, true⟩, false)
  else if e.rmTempBaseFails then (⟨true, true, false, false, true⟩, false)
  else if e.rmTarFails then (⟨true, false, false, false, true⟩, false)
  else (⟨false, false, false, false, true⟩, true)

/-- A run in which the archive extraction (`tar xf`, line 263) fails and
every other step would succeed. -/
def c8BadEnv : MainEnv :=
  ⟨false, false, false, false, false, false, true,
    false, false, false, false, false, false, false⟩

/-- Counterexample to claim C8 as stated: when the archive extraction
fails, the pipeline aborts and BOTH the `docker_extract_temp` workspace
and the fixed-name archive are still on disk at exit — cleanup (lines
309–316) is reached only on the success path. -/
theorem c8_counterexample :
    (mainRun c8BadEnv).2 = false
    ∧ ¬ ((mainRun c8BadEnv).1.tempBase = false ∧ (mainRun c8BadEnv).1.tar = false) := by
  constructor
  · decide
  · decide

/-- Claim C8, amended: the `tempfile`-managed inner extraction directories
are removed on every path (success or fatal error) by their drop, but the
fixed-name workspace `docker_extract_temp` and the fixed-name archive are
guaranteed removed only when the pipeline terminates successfully; on a
fatal error after their creation they persist. -/
theorem c8_cleanup_on_success (e : MainEnv) :
    ((mainRun e).1.workDir = false ∧ (mainRun e).1.layerDir = false)
    ∧ ((mainRun e).2 = true →
        (mainRun e).1.tempBase = false ∧ (mainRun e).1.tar = false) := by
  have h : ∀ r : MainFs × Bool, mainRun e = r →
      (r.1.workDir = false ∧ r.1.layerDir = false)
      ∧ (r.2 = true → r.1.tempBase = false ∧ r.1.tar = false) := by
    intro r hr
    unfold mainRun at hr
    by_cases h1 : e.rmOldFails = true
    · rw [if_pos h1] at hr
      subst hr
      simp
    · rw [if_neg h1] at hr
      by_cases h2 : e.buildFails = true
      · rw [if_pos h2] at hr
        subst hr
        simp
      · rw [if_neg h2] at hr
        by_cases h3 : e.saveFails = true
        · rw [if_pos h3] at hr
          subst hr
          simp
        · rw [if_neg h3] at hr
          by_cases h4 : e.removeImageFails = true
          · rw [if_pos h4] at hr
            subst hr
            simp
          · rw [if_neg h4] at hr
            by_cases h5 : e.mkTempBaseFails = true
            · rw [if_pos h5] at hr
              subst hr
              simp
            · rw [if_neg h5] at hr
              by_cases h6 : e.workTempFails = true
              · rw [if_pos h6] at hr
                subst hr
                simp
              · rw [if_neg h6] at hr
                by_cases h7 : e.extractFails = true
                · rw [if_pos h7] at hr
                  subst hr
                  simp
                · rw [if_neg h7] at hr
                  by_cases h8 : e.parseFails = true
                  · rw [if_pos h8] at hr
                    subst hr
                    simp
                  · rw [if_neg h8] at hr
                    by_cases h9 : e.layerTempFails = true
                    · rw [if_pos h9] at hr
                      subst hr
                      simp
                    · rw [if_neg h9] at hr
                      by_cases h10 : e.layerExtractFails = true
                      · rw [if_pos h10] at hr
                        subst hr
                        simp
                      · rw [if_neg h10] at hr
                        by_cases h11 : e.mkFinalFails = true
                        · rw [if_pos h11] at hr
                          subst hr
                          simp
                        · rw [if_neg h11] at hr
                          by_cases h12 : e.copyComponentsFails = true
                          · rw [if_pos h12] at hr
                            subst hr
                            simp
                          · rw [if_neg h12] at hr
                            by_cases h13 : e.rmTempBaseFails = true
                            · rw [if_pos h13] at hr
                              subst hr
                              simp
                            · rw [if_neg h13] at hr
                              by_cases h14 : e.rmTarFails = true
                              · rw [if_pos h14] at hr
                                subst hr
                                simp
                              · rw [if_neg h14] at hr
                                subst hr
                                simp
  exact h (mainRun e) rfl

/-- Witness for the amended claim C8: the all-success run removes the
workspace and the archive. -/
theorem c8_cleanup_on_success_witness :
    (mainRun ⟨false, false, false, false, false, false, false,
        false, false, false, false, false, false, false⟩).2 = true
    ∧ (mainRun ⟨false, false, false, false, false, false, false,
        false, false, false, false, false, false, false⟩).1.tempBase = false
    ∧ (mainRun ⟨false, false, false, false, false, false, false,
        false, false, false, false, false, false, false⟩).1.tar = false := by
  refine ⟨by decide, ?_⟩
  exact (c8_cleanup_on_success ⟨false, false, false, false, false, false, false,
    false, false, false, false, false, false, false⟩).2 (by decide)
